import Mathlib

/-!
Verification development for the pre-midnight proof migration worker
(`node/consensus/data/pre_midnight_proof_worker.go`) of the ceremony-client
repository.

The Go code is shallowly embedded: bytes are naturals below 256, byte slices
are `List Nat`, `uint32`/`uint64` values are naturals truncated by the
big-endian encoders, and the signed loop variable of the submission loop is
an `Int`, exactly as the source casts it.  The remote service, the local
proof store and the ownership store are oracles passed in as functions.
-/

namespace Ceremony

/-- Big-endian fixed-width encoding of a natural, `k` bytes, truncating
modulo `2^(8*k)` exactly as Go's integer casts followed by
`binary.BigEndian.AppendUint32/64` do. -/
def natToBytesBE : Nat → Nat → List Nat
  | 0, _ => []
  | k + 1, n => natToBytesBE k (n / 256) ++ [n % 256]

/-- Big-endian decoding, inverse of `natToBytesBE` on in-range values. -/
def fromBytesBE (l : List Nat) : Nat :=
  l.foldl (fun a b => a * 256 + b) 0

/-- Concatenation of a list of byte slices. -/
def bytesConcat : List (List Nat) → List Nat
  | [] => []
  | x :: xs => x ++ bytesConcat xs

/-- The literal batch tag `[]byte("pre-dusk")` from the source. -/
def preDusk : List Nat := [112, 114, 101, 45, 100, 117, 115, 107]

/-- The literal signing tag `[]byte("mint")` from the source. -/
def mintTag : List Nat := [109, 105, 110, 116]

/-- The all-zero 32-byte sentinel `make([]byte, 32)` used for the resume
token. -/
def zeros32 : List Nat := List.replicate 32 0

/-- One locally stored data time proof record, as returned by
`dataProofStore.GetDataTimeProof` (the increment is the lookup key). -/
structure DataTimeProof where
  parallelism : Nat
  input : List Nat
  output : List Nat
deriving DecidableEq

/-- Framing of one proof entry, translated from the append sequence at
lines 142-148 of the source:
`be32(i) || be32(parallelism) || be64(len(input)) || input ||
be64(len(output)) || output`. -/
def frameEntry (i : Nat) (r : DataTimeProof) : List Nat :=
  let p : List Nat := []
  let p := p ++ natToBytesBE 4 i
  let p := p ++ natToBytesBE 4 r.parallelism
  let p := p ++ natToBytesBE 8 r.input.length
  let p := p ++ r.input
  let p := p ++ natToBytesBE 8 r.output.length
  let p := p ++ r.output
  p

/-- The signing payload built at lines 165-168 of the source:
`payload := []byte("mint")` followed by appending every batch entry in
order. -/
def payloadOf (proofs : List (List Nat)) : List Nat :=
  proofs.foldl (fun a b => a ++ b) mintTag

/-- Outcome of one execution of the inner submission loop
(lines 136-215), up to but excluding the handling of the mint response:
either a missing record was hit (lines 151-158: log and return), or
the batch closed at some increment (line 162) and is about to be signed
and submitted, or the loop guard `i >= 0` failed on entry.  `visited`
records the loop-body executions in order, as the `Int` values of the
loop variable.  `stuck` is an artifact of the fuel-based encoding and is
unreachable from `innerLoop`. -/
inductive InnerOut where
  | fatal (missing : Nat) (visited : List Int)
  | close (closedAt : Nat) (batch : List (List Nat)) (visited : List Int)
  | exitLoop (visited : List Int)
  | stuck (visited : List Int)
deriving DecidableEq

/-- The visited list of an inner-loop outcome. -/
def InnerOut.visited : InnerOut → List Int
  | .fatal _ v => v
  | .close _ _ v => v
  | .exitLoop v => v
  | .stuck v => v

/-- Prepend a visited increment to an inner-loop outcome. -/
def InnerOut.consVisit (i : Int) : InnerOut → InnerOut
  | .fatal j v => .fatal j (i :: v)
  | .close c b v => .close c b (i :: v)
  | .exitLoop v => .exitLoop (i :: v)
  | .stuck v => .stuck (i :: v)

/-- Fuel-indexed body of the inner submission loop
`for i := int(increment); i >= 0; i--` (lines 136-215).  The loop
variable is an `Int`, mirroring the deliberate signed cast in the source
(line 135: "the cast is important, it underflows without").  Each
iteration looks the increment up in the store; a missing record is fatal;
otherwise the framed entry is appended and the batch closes when 200
records accumulated or the increment is 0. -/
def innerLoopAux (store : Nat → Option DataTimeProof) :
    Nat → Int → Nat → List (List Nat) → InnerOut
  | 0, _, _, _ => .stuck []
  | fuel + 1, i, batchCount, proofs =>
    if 0 ≤ i then
      match store i.toNat with
      | none => .fatal i.toNat [i]
      | some r =>
        let proofs2 := proofs ++ [frameEntry i.toNat r]
        if batchCount + 1 = 200 ∨ i = 0 then
          .close i.toNat proofs2 [i]
        else
          (innerLoopAux store fuel (i - 1) (batchCount + 1) proofs2).consVisit i
    else
      .exitLoop []

/-- The inner submission loop, entered with enough fuel for the whole
descending range (the loop decrements by exactly one per iteration). -/
def innerLoop (store : Nat → Option DataTimeProof) (i : Int)
    (batchCount : Nat) (proofs : List (List Nat)) : InnerOut :=
  innerLoopAux store (i.toNat + 1) i batchCount proofs

/-- The mutable state carried across outer-loop iterations: the `resume`
token and the `increment` variable of the source. -/
structure WorkerState where
  resume : List Nat
  increment : Nat
deriving DecidableEq

/-- Whether the outer-loop iteration calls `GetPreMidnightMintStatus`:
exactly when the resume token equals the all-zero sentinel (line 101). -/
def callsStatus (s : WorkerState) : Bool :=
  decide (s.resume = zeros32)

/-- Handling of the status call (lines 101-127).  `none` for the response
models an error or nil response (transient retry); otherwise the returned
address is adopted as the resume token and the increment becomes
`status.Increment - 1` when non-zero, else 0.  When the resume token is
not the sentinel the state passes through unchanged and no call is
made. -/
def processStatus (s : WorkerState) (resp : Option (List Nat × Nat)) :
    Option WorkerState :=
  if s.resume = zeros32 then
    match resp with
    | none => none
    | some (a, inc) => some ⟨a, if inc ≠ 0 then inc - 1 else 0⟩
  else some s

/-- Result of one outer-loop iteration: successful completion (`return`
at line 208), fatal missing record (`return` at line 158), a transient
failure followed by a 10-second sleep and retry (lines 110-117 and
188-196), or continuation into the next iteration after a successful
batch at a non-zero increment (line 210). -/
inductive StepResult where
  | done
  | fatalMissing (i : Nat)
  | retryTransient (s : WorkerState)
  | continueOuter (s : WorkerState)
deriving DecidableEq

/-- Observation record of one outer-loop iteration. -/
structure StepTrace where
  calledStatus : Bool
  initProofs : Option (List (List Nat))
  visited : List Int
  submitted : Option (List (List Nat))
  payload : Option (List Nat)
  closedAt : Option Nat
  result : StepResult
deriving DecidableEq

/-- One iteration of the outer loop (lines 88-217): resolve the resume
status, build the batch `[tag, resume]` (lines 129-132), run the inner
loop, and on closure sign `payloadOf batch` and submit.  `statusResp` and
`mintResp` are the remote responses (`none` models an error). -/
def stepSession (store : Nat → Option DataTimeProof)
    (statusResp : Option (List Nat × Nat)) (mintResp : Option (List Nat))
    (s : WorkerState) : StepTrace :=
  let called := callsStatus s
  match processStatus s statusResp with
  | none => ⟨called, none, [], none, none, none, .retryTransient s⟩
  | some s2 =>
    let ini := [preDusk, s2.resume]
    match innerLoop store (Int.ofNat s2.increment) 0 ini with
    | .fatal j v => ⟨called, some ini, v, none, none, none, .fatalMissing j⟩
    | .close c b v =>
      match mintResp with
      | none =>
        ⟨called, some ini, v, some b, some (payloadOf b), some c,
          .retryTransient s2⟩
      | some a2 =>
        if c = 0 then
          ⟨called, some ini, v, some b, some (payloadOf b), some c, .done⟩
        else
          ⟨called, some ini, v, some b, some (payloadOf b), some c,
            .continueOuter ⟨a2, c - 1⟩⟩
    | .exitLoop v => ⟨called, some ini, v, none, none, none, .continueOuter s2⟩
    | .stuck v => ⟨called, some ini, v, none, none, none, .continueOuter s2⟩

/-- Final outcome of a bounded run of the outer loop. -/
inductive RunOutcome where
  | done
  | fatalMissing (i : Nat)
  | outOfFuel (s : WorkerState)
deriving DecidableEq

/-- Accumulated observations of a run: every batch submitted, every
increment visited, and the number of sessions opened. -/
structure RunOut where
  batches : List (List (List Nat))
  visited : List Int
  sessions : Nat
  outcome : RunOutcome
deriving DecidableEq

/-- A submitted batch as a (zero- or one-element) list. -/
def optBatch : Option (List (List Nat)) → List (List (List Nat))
  | none => []
  | some b => [b]

/-- Bounded iteration of the outer loop.  `statusF` and `mintF` give the
response to the n-th status call and the n-th mint call respectively; the
two counters thread the number of calls already made. -/
def runWorker (store : Nat → Option DataTimeProof)
    (statusF : Nat → Option (List Nat × Nat))
    (mintF : Nat → Option (List Nat)) :
    Nat → Nat → Nat → WorkerState → RunOut
  | 0, _, _, s => ⟨[], [], 0, .outOfFuel s⟩
  | fuel + 1, sc, mc, s =>
    let t := stepSession store (statusF sc) (mintF mc) s
    let sc2 := if t.calledStatus then sc + 1 else sc
    let mc2 := if t.submitted.isSome then mc + 1 else mc
    match t.result with
    | .done => ⟨optBatch t.submitted, t.visited, 1, .done⟩
    | .fatalMissing j => ⟨optBatch t.submitted, t.visited, 1, .fatalMissing j⟩
    | .retryTransient s2 =>
      let r := runWorker store statusF mintF fuel sc2 mc2 s2
      ⟨optBatch t.submitted ++ r.batches, t.visited ++ r.visited,
        r.sessions + 1, r.outcome⟩
    | .continueOuter s2 =>
      let r := runWorker store statusF mintF fuel sc2 mc2 s2
      ⟨optBatch t.submitted ++ r.batches, t.visited ++ r.visited,
        r.sessions + 1, r.outcome⟩

/-- Error kinds returned by the stores, distinguishing
`store.ErrNotFound` from every other error. -/
inductive GoErr where
  | notFound
  | other
deriving DecidableEq

/-- Outcome of the already-minted gate. -/
inductive GateOut where
  | fatalStoreError
  | alreadyCompleted
  | ready
deriving DecidableEq

/-- The already-minted check at lines 73-84: a non-`ErrNotFound` error is
fatal; any returned proof-of-ownership record means the mint already
completed; otherwise the worker is ready to submit. -/
def checkAlreadyMinted (err : Option GoErr) (prfs : List (List Nat)) :
    GateOut :=
  if err.isSome ∧ err ≠ some .notFound then .fatalStoreError
  else if prfs ≠ [] then .alreadyCompleted
  else .ready

/-- Outcome of the worker from the already-minted gate onwards. -/
inductive TopOut where
  | fatalStoreError
  | alreadyCompleted
  | ran (r : RunOut)
deriving DecidableEq

/-- The worker from the ownership-store query onwards: the session loop
runs only when the gate reports ready. -/
def topRun (err : Option GoErr) (prfs : List (List Nat))
    (store : Nat → Option DataTimeProof)
    (statusF : Nat → Option (List Nat × Nat))
    (mintF : Nat → Option (List Nat)) (fuel : Nat) (s : WorkerState) :
    TopOut :=
  match checkAlreadyMinted err prfs with
  | .fatalStoreError => .fatalStoreError
  | .alreadyCompleted => .alreadyCompleted
  | .ready => .ran (runWorker store statusF mintF fuel 0 0 s)

/-- Number of direct-channel sessions opened by a worker run. -/
def TopOut.sessions : TopOut → Nat
  | .ran r => r.sessions
  | _ => 0

/-- The descending range `[hi, hi-1, ..., lo]`, empty when `hi < lo`. -/
def descRange : Nat → Nat → List Nat
  | 0, lo => if lo = 0 then [0] else []
  | h + 1, lo => if h + 1 < lo then [] else (h + 1) :: descRange h lo

/-- The increment at which a batch started at increment `n` with
`batchCount` already-accumulated records closes. -/
def stopAt (n batchCount : Nat) : Nat :=
  if n + batchCount ≤ 199 then 0 else n + batchCount - 199

/-- The record at key `k`, defaulting (only used where the store is known
to be populated). -/
def getR (store : Nat → Option DataTimeProof) (k : Nat) : DataTimeProof :=
  (store k).getD ⟨0, [], []⟩

/-- The fields of a `protobufs.PreCoinProof` consumed by
`GetAddressOfPreCoinProof` (lines 220-240); `ownerAddress` is
`proof.Owner.GetImplicitAccount().Address`. -/
structure PreCoinProof where
  amount : List Nat
  index : Nat
  indexProof : List Nat
  commitment : List Nat
  proof : List Nat
  parallelism : Nat
  difficulty : Nat
  ownerAddress : List Nat
deriving DecidableEq

/-- The hash input built by `GetAddressOfPreCoinProof` (lines 223-233),
translated append by append.  `tag` stands for the constant
`application.TOKEN_ADDRESS`, whose defining file is outside the sources
at hand, so the constant is a parameter here (the spec calls it "a
constant domain tag"); its exact value does not matter for any property
below. -/
def preCoinEval (tag : List Nat) (p : PreCoinProof) : List Nat :=
  let e : List Nat := []
  let e := e ++ tag
  let e := e ++ p.amount
  let e := e ++ natToBytesBE 4 p.index
  let e := e ++ p.indexProof
  let e := e ++ p.commitment
  let e := e ++ p.proof
  let e := e ++ natToBytesBE 4 p.parallelism
  let e := e ++ natToBytesBE 4 p.difficulty
  let e := e ++ natToBytesBE 4 0
  let e := e ++ p.ownerAddress
  e

/-- Go's `big.Int.FillBytes(make([]byte, 32))`: the 32-byte big-endian
encoding when the value fits, a panic (modelled as `none`) otherwise. -/
def fillBytes32 (n : Nat) : Option (List Nat) :=
  if n < 2 ^ 256 then some (natToBytesBE 32 n) else none

/-- `GetAddressOfPreCoinProof` (lines 220-240): hash the concatenated
fields and left-pad into 32 bytes.  The poseidon hash is third-party
code, so it is a parameter `hash` returning `none` on failure, matching
`poseidon.HashBytes`'s error return. -/
def GetAddressOfPreCoinProof (tag : List Nat)
    (hash : List Nat → Option Nat) (p : PreCoinProof) : Option (List Nat) :=
  match hash (preCoinEval tag p) with
  | none => none
  | some v => fillBytes32 v

/-! Concrete instances used by witnesses and counterexamples. -/

/-- A store holding records at increments 0..5. -/
def store1 : Nat → Option DataTimeProof :=
  fun k => if k ≤ 5 then some ⟨k, [k], [k]⟩ else none

/-- A store with a gap: no record at increment 1. -/
def storeG : Nat → Option DataTimeProof :=
  fun k => if k = 1 then none else some ⟨k, [k], [k]⟩

/-- A total store. -/
def storeBig : Nat → Option DataTimeProof :=
  fun k => some ⟨k, [k], [k]⟩

/-- A concrete non-sentinel 32-byte address. -/
def addr1 : List Nat := List.replicate 31 0 ++ [1]

/-- Another concrete non-sentinel 32-byte address. -/
def addr2 : List Nat := List.replicate 31 0 ++ [2]

/-- A status oracle answering with `addr1` and increment 3. -/
def sf1 : Nat → Option (List Nat × Nat) := fun _ => some (addr1, 3)

/-- A mint oracle answering with `addr2`. -/
def mf1 : Nat → Option (List Nat) := fun _ => some addr2

/-- The store of the end-to-end scenario: records at increments 0..5. -/
def store5 : Nat → Option DataTimeProof :=
  fun k => if k ≤ 5 then some ⟨k, [k], [k + 1]⟩ else none

/-- The batch submitted from state `⟨addr1, 2⟩` against `store1`. -/
def b0 : List (List Nat) :=
  [preDusk, addr1, frameEntry 2 ⟨2, [2], [2]⟩, frameEntry 1 ⟨1, [1], [1]⟩,
    frameEntry 0 ⟨0, [0], [0]⟩]

/-- The batch submitted from state `⟨addr1, 300⟩` against `storeBig`
(200 entries, increments 300 down to 101). -/
def bBig : List (List Nat) :=
  [preDusk, addr1] ++ (descRange 300 101).map (fun k => frameEntry k ⟨k, [k], [k]⟩)

/-- A concrete hash for counterexamples: an injective base-257 fold,
reduced into the field range. -/
def hashCx : List Nat → Option Nat :=
  fun l => some ((l.foldl (fun a b => a * 257 + b + 1) 0) % 2 ^ 256)

/-- A concrete domain tag for counterexamples. -/
def tagCx : List Nat := [9]

/-- A proof whose `indexProof` and `commitment` are `[1]` and `[1, 1]`. -/
def pCx1 : PreCoinProof := ⟨[2], 3, [1], [1, 1], [4], 5, 6, [7]⟩

/-- `pCx1` with `indexProof` and `commitment` swapped. -/
def pCx2 : PreCoinProof := ⟨[2], 3, [1, 1], [1], [4], 5, 6, [7]⟩

/-- A trivially evaluable hash used by a witness. -/
def hashW : List Nat → Option Nat := fun _ => some 5

/-! Helper lemmas. -/

theorem natToBytesBE_length (k : Nat) : ∀ n, (natToBytesBE k n).length = k := by
  induction k with
  | zero => intro n; rfl
  | succ k ih => intro n; simp [natToBytesBE, ih]

theorem fromBytesBE_natToBytesBE (k : Nat) :
    ∀ n, n < 2 ^ (8 * k) → fromBytesBE (natToBytesBE k n) = n := by
  induction k with
  | zero =>
    intro n h
    simp only [Nat.mul_zero, pow_zero] at h
    interval_cases n
    rfl
  | succ k ih =>
    intro n h
    have hp : (2 : Nat) ^ (8 * (k + 1)) = 2 ^ (8 * k) * 256 := by
      rw [Nat.mul_succ, pow_add]; norm_num
    have h2 : n / 256 < 2 ^ (8 * k) := Nat.div_lt_of_lt_mul (by omega)
    have ihn := ih (n / 256) h2
    simp only [natToBytesBE, fromBytesBE, List.foldl_append, List.foldl] at ihn ⊢
    rw [ihn]
    omega

theorem natToBytesBE_inj (k a b : Nat) (ha : a < 2 ^ (8 * k))
    (hb : b < 2 ^ (8 * k)) (h : natToBytesBE k a = natToBytesBE k b) :
    a = b := by
  have := fromBytesBE_natToBytesBE k a ha
  rw [h, fromBytesBE_natToBytesBE k b hb] at this
  omega

theorem foldl_append_eq (ini : List Nat) (l : List (List Nat)) :
    l.foldl (fun a b => a ++ b) ini = ini ++ bytesConcat l := by
  induction l generalizing ini with
  | nil => simp [bytesConcat]
  | cons x xs ih => simp [bytesConcat, List.foldl, ih, List.append_assoc]

theorem payloadOf_eq (l : List (List Nat)) :
    payloadOf l = mintTag ++ bytesConcat l :=
  foldl_append_eq mintTag l

theorem consVisit_visited (i : Int) (o : InnerOut) :
    (o.consVisit i).visited = i :: o.visited := by
  cases o <;> rfl

theorem consVisit_eq_close (i : Int) (o : InnerOut) (c : Nat)
    (b : List (List Nat)) (v : List Int) (h : o.consVisit i = .close c b v) :
    ∃ t, o = .close c b t ∧ v = i :: t := by
  cases o <;> simp [InnerOut.consVisit] at h
  obtain ⟨h1, h2, h3⟩ := h
  exact ⟨_, by rw [h1, h2], h3.symm⟩

theorem descRange_nil (n lo : Nat) (h : n < lo) : descRange n lo = [] := by
  cases n with
  | zero =>
    have h0 : lo ≠ 0 := by omega
    simp [descRange, h0]
  | succ m => simp [descRange, h]

theorem descRange_cons (n lo : Nat) (h1 : 1 ≤ n) (h2 : lo ≤ n) :
    descRange n lo = n :: descRange (n - 1) lo := by
  cases n with
  | zero => omega
  | succ m =>
    have h3 : ¬(m + 1 < lo) := by omega
    simp [descRange, h3]

theorem descRange_self (n : Nat) : descRange n n = [n] := by
  cases n with
  | zero => simp [descRange]
  | succ m =>
    have h1 : ¬(m + 1 < m + 1) := by omega
    simp [descRange, h1, descRange_nil m (m + 1) (by omega)]

theorem descRange_head (n lo : Nat) (h : lo ≤ n) :
    (descRange n lo).head? = some n := by
  cases n with
  | zero =>
    have h0 : lo = 0 := by omega
    simp [descRange, h0]
  | succ m =>
    have h3 : ¬(m + 1 < lo) := by omega
    simp [descRange, h3]

theorem descRange_mem (n lo k : Nat) (h : k ∈ descRange n lo) :
    lo ≤ k ∧ k ≤ n := by
  induction n with
  | zero =>
    by_cases hlo : lo = 0
    · subst hlo; simp [descRange] at h; omega
    · simp [descRange, hlo] at h
  | succ m ih =>
    by_cases hlt : m + 1 < lo
    · simp [descRange, hlt] at h
    · simp only [descRange, if_neg hlt, List.mem_cons] at h
      rcases h with h | h
      · omega
      · have := ih h; omega

theorem descRange_chain (n lo : Nat) :
    List.Chain' (fun a b => b < a) (descRange n lo) := by
  induction n with
  | zero => by_cases hlo : lo = 0 <;> simp [descRange, hlo]
  | succ m ih =>
    by_cases hlt : m + 1 < lo
    · simp [descRange, hlt]
    · simp only [descRange, if_neg hlt]
      refine List.chain'_cons'.mpr ⟨?_, ih⟩
      intro b hb
      by_cases hm : lo ≤ m
      · rw [descRange_head m lo hm] at hb
        simp at hb
        omega
      · rw [descRange_nil m lo (by omega)] at hb
        simp at hb

theorem descRange_append (n k lo : Nat) (h1 : lo ≤ k) (h2 : k < n) :
    descRange n lo = descRange n (k + 1) ++ descRange k lo := by
  induction n with
  | zero => omega
  | succ m ih =>
    by_cases hm : k = m
    · subst hm
      rw [descRange_self (k + 1), descRange_cons (k + 1) lo (by omega) (by omega)]
      simp
    · have hkm : k < m := by omega
      rw [descRange_cons (m + 1) lo (by omega) (by omega),
        descRange_cons (m + 1) (k + 1) (by omega) (by omega)]
      simp only [Nat.add_sub_cancel]
      rw [ih hkm]
      simp

theorem innerLoopAux_head (store : Nat → Option DataTimeProof) (fuel : Nat)
    (i : Int) (bc : Nat) (p : List (List Nat)) (h0 : 0 ≤ i) :
    (innerLoopAux store (fuel + 1) i bc p).visited.head? = some i := by
  simp only [innerLoopAux, if_pos h0]
  split
  · rfl
  · split
    · rfl
    · rw [consVisit_visited]
      rfl

theorem innerLoopAux_total (store : Nat → Option DataTimeProof) :
    ∀ (fuel n bc : Nat) (p : List (List Nat)),
      n < fuel → bc < 200 →
      (∀ k, stopAt n bc ≤ k → k ≤ n → (store k).isSome) →
      innerLoopAux store fuel (Int.ofNat n) bc p =
        .close (stopAt n bc)
          (p ++ (descRange n (stopAt n bc)).map
            (fun k => frameEntry k (getR store k)))
          ((descRange n (stopAt n bc)).map Int.ofNat) := by
  intro fuel
  induction fuel with
  | zero => intro n bc p h; omega
  | succ fuel ih =>
    intro n bc p hn hbc htot
    have h0 : (0 : Int) ≤ Int.ofNat n := Int.ofNat_nonneg n
    have hsome : (store n).isSome :=
      htot n (by unfold stopAt; split <;> omega) (le_refl n)
    simp only [innerLoopAux, if_pos h0]
    rw [show (Int.ofNat n).toNat = n from rfl]
    split
    · next heq =>
      rw [heq] at hsome
      simp at hsome
    · next r hr =>
      by_cases hc : bc + 1 = 200 ∨ Int.ofNat n = 0
      · have hcn : stopAt n bc = n := by
          rcases hc with hc | hc
          · unfold stopAt; split <;> omega
          · have hn0 : n = 0 := by
              simpa [Int.ofNat_eq_zero] using hc
            subst hn0
            unfold stopAt; split <;> omega
        rw [if_pos hc, hcn, descRange_self]
        simp [getR, hr]
      · rw [if_neg hc]
        push_neg at hc
        obtain ⟨hc1, hc2⟩ := hc
        have hn1 : 1 ≤ n := by
          rcases Nat.eq_zero_or_pos n with h | h
          · exact absurd (by simp [h]) hc2
          · omega
        have hstop : stopAt (n - 1) (bc + 1) = stopAt n bc := by
          unfold stopAt; split <;> split <;> omega
        have hlt : stopAt n bc ≤ n - 1 := by
          unfold stopAt; split <;> omega
        have htot2 : ∀ k, stopAt (n - 1) (bc + 1) ≤ k → k ≤ n - 1 →
            (store k).isSome := by
          intro k hk1 hk2
          rw [hstop] at hk1
          exact htot k hk1 (by omega)
        have hsub : Int.ofNat n - 1 = Int.ofNat (n - 1) := by
          simp only [Int.ofNat_eq_natCast]
          omega
        rw [hsub, ih (n - 1) (bc + 1) _ (by omega) (by omega) htot2]
        rw [hstop, descRange_cons n (stopAt n bc) hn1 (by omega)]
        simp [InnerOut.consVisit, List.append_assoc, getR, hr]

theorem innerLoopAux_gap (store : Nat → Option DataTimeProof) :
    ∀ (fuel n bc j : Nat) (p : List (List Nat)),
      n < fuel → store j = none → j ≤ n →
      (∀ k, j < k → k ≤ n → (store k).isSome) →
      bc + (n - j) < 200 →
      innerLoopAux store fuel (Int.ofNat n) bc p =
        .fatal j ((descRange n j).map Int.ofNat) := by
  intro fuel
  induction fuel with
  | zero => intro n bc j p h; omega
  | succ fuel ih =>
    intro n bc j p hn hj hjn htot hbc
    have h0 : (0 : Int) ≤ Int.ofNat n := Int.ofNat_nonneg n
    simp only [innerLoopAux, if_pos h0]
    rw [show (Int.ofNat n).toNat = n from rfl]
    by_cases hnj : n = j
    · subst hnj
      split

      · rw [descRange_self]
        rfl
      · next r hr => rw [hr] at hj; simp at hj
    · have hsome : (store n).isSome := htot n (by omega) (le_refl n)
      split
      · next heq =>
        rw [heq] at hsome
        simp at hsome
      · next r hr =>
        have hc : ¬(bc + 1 = 200 ∨ Int.ofNat n = 0) := by
          push_neg
          constructor
          · omega
          · simp [Int.ofNat_eq_zero]
            omega
        rw [if_neg hc]
        have hsub : Int.ofNat n - 1 = Int.ofNat (n - 1) := by
          simp only [Int.ofNat_eq_natCast]
          omega
        rw [hsub, ih (n - 1) (bc + 1) j _ (by omega) hj (by omega)
          (fun k hk1 hk2 => htot k hk1 (by omega)) (by omega)]
        rw [descRange_cons n j (by omega) (by omega)]
        simp [InnerOut.consVisit]

theorem innerLoopAux_close_structure (store : Nat → Option DataTimeProof) :
    ∀ (fuel : Nat) (i : Int) (bc : Nat) (p : List (List Nat)) (c : Nat)
      (b : List (List Nat)) (v : List Int),
      bc < 200 →
      innerLoopAux store fuel i bc p = .close c b v →
      ∃ entries, b = p ++ entries ∧ entries ≠ [] ∧
        entries.length ≤ 200 - bc ∧ (bc + entries.length = 200 ∨ c = 0) ∧
        ∀ e ∈ entries, ∃ k r, store k = some r ∧ e = frameEntry k r := by
  intro fuel
  induction fuel with
  | zero =>
    intro i bc p c b v hbc h
    simp [innerLoopAux] at h
  | succ fuel ih =>
    intro i bc p c b v hbc h
    simp only [innerLoopAux] at h
    by_cases h0 : (0 : Int) ≤ i
    · rw [if_pos h0] at h
      split at h
      · simp at h
      · next r hs =>
        by_cases hc : bc + 1 = 200 ∨ i = 0
        · rw [if_pos hc] at h
          obtain ⟨hc1, hb, hv⟩ := by simpa using h
          refine ⟨[frameEntry i.toNat r], hb.symm, by simp, by simp; omega, ?_, ?_⟩
          · rcases hc with hc | hc
            · left; simp; omega
            · right
              rw [← hc1]
              simp [hc]
          · intro e he
            simp at he
            exact ⟨i.toNat, r, hs, he⟩
        · rw [if_neg hc] at h
          obtain ⟨t, ht, hv⟩ := consVisit_eq_close i _ c b v h
          obtain ⟨es, hes1, hes2, hes3, hes4, hes5⟩ :=
            ih (i - 1) (bc + 1) _ c b t (by omega) ht
          refine ⟨frameEntry i.toNat r :: es, ?_, by simp, ?_, ?_, ?_⟩
          · rw [hes1]
            simp
          · simp
            omega
          · rcases hes4 with h4 | h4
            · left
              simp
              omega
            · right
              exact h4
          · intro e he
            rcases List.mem_cons.mp he with he | he
            · exact ⟨i.toNat, r, hs, he⟩
            · exact hes5 e he
    · rw [if_neg h0] at h
      simp at h

theorem innerLoopAux_visited_shape (store : Nat → Option DataTimeProof) :
    ∀ (fuel n bc : Nat) (p : List (List Nat)), n < fuel →
      ∃ j, j ≤ n ∧
        (innerLoopAux store fuel (Int.ofNat n) bc p).visited =
          (descRange n j).map Int.ofNat := by
  intro fuel
  induction fuel with
  | zero => intro n bc p h; omega
  | succ fuel ih =>
    intro n bc p hn
    have h0 : (0 : Int) ≤ Int.ofNat n := Int.ofNat_nonneg n
    simp only [innerLoopAux, if_pos h0]
    rw [show (Int.ofNat n).toNat = n from rfl]
    split
    · exact ⟨n, le_refl n, by rw [descRange_self]; rfl⟩
    · next r hr =>
      by_cases hc : bc + 1 = 200 ∨ Int.ofNat n = 0
      · rw [if_pos hc]
        exact ⟨n, le_refl n, by rw [descRange_self]; rfl⟩
      · rw [if_neg hc]
        push_neg at hc
        have hn1 : 1 ≤ n := by
          rcases Nat.eq_zero_or_pos n with h | h
          · exact absurd (by simp [h]) hc.2
          · omega
        have hsub : Int.ofNat n - 1 = Int.ofNat (n - 1) := by
          simp only [Int.ofNat_eq_natCast]
          omega
        rw [hsub]
        obtain ⟨j, hj, hvis⟩ := ih (n - 1) (bc + 1) _ (by omega)
        refine ⟨j, by omega, ?_⟩
        rw [consVisit_visited, hvis, descRange_cons n j hn1 (by omega)]
        rfl

theorem innerLoopAux_shape (store : Nat → Option DataTimeProof) :
    ∀ (fuel n bc : Nat) (p : List (List Nat)), n < fuel →
      (∃ j v, innerLoopAux store fuel (Int.ofNat n) bc p = .fatal j v) ∨
      (∃ c b v, innerLoopAux store fuel (Int.ofNat n) bc p = .close c b v) := by
  intro fuel
  induction fuel with
  | zero => intro n bc p h; omega
  | succ fuel ih =>
    intro n bc p hn
    have h0 : (0 : Int) ≤ Int.ofNat n := Int.ofNat_nonneg n
    simp only [innerLoopAux, if_pos h0]
    split
    · exact Or.inl ⟨_, _, rfl⟩
    · next r hr =>
      by_cases hc : bc + 1 = 200 ∨ Int.ofNat n = 0
      · rw [if_pos hc]
        exact Or.inr ⟨_, _, _, rfl⟩
      · rw [if_neg hc]
        push_neg at hc
        have hn1 : 1 ≤ n := by
          rcases Nat.eq_zero_or_pos n with h | h
          · exact absurd (by simp [h]) hc.2
          · omega
        have hsub : Int.ofNat n - 1 = Int.ofNat (n - 1) := by
          simp only [Int.ofNat_eq_natCast]
          omega
        rw [hsub]
        rcases ih (n - 1) (bc + 1) _ (by omega) with ⟨j, v, hv⟩ | ⟨c, b, v, hv⟩
        · rw [hv]
          exact Or.inl ⟨_, _, rfl⟩
        · rw [hv]
          exact Or.inr ⟨_, _, _, rfl⟩

theorem stepSession_eq_retry (store : Nat → Option DataTimeProof)
    (sr : Option (List Nat × Nat)) (mr : Option (List Nat)) (s : WorkerState)
    (hps : processStatus s sr = none) :
    stepSession store sr mr s =
      ⟨callsStatus s, none, [], none, none, none, .retryTransient s⟩ := by
  simp only [stepSession]
  split
  · rfl
  · next s3 heq =>
    rw [hps] at heq
    cases heq

theorem stepSession_eq_fatal (store : Nat → Option DataTimeProof)
    (sr : Option (List Nat × Nat)) (mr : Option (List Nat)) (s s2 : WorkerState)
    (j : Nat) (v : List Int) (hps : processStatus s sr = some s2)
    (hil : innerLoop store (Int.ofNat s2.increment) 0 [preDusk, s2.resume] =
      .fatal j v) :
    stepSession store sr mr s =
      ⟨callsStatus s, some [preDusk, s2.resume], v, none, none, none,
        .fatalMissing j⟩ := by
  simp only [stepSession]
  split
  · next heq =>
    rw [hps] at heq
    cases heq
  · next s3 heq =>
    rw [hps] at heq
    injection heq with heq2
    subst heq2
    rw [hil]

theorem stepSession_eq_close (store : Nat → Option DataTimeProof)
    (sr : Option (List Nat × Nat)) (mr : Option (List Nat)) (s s2 : WorkerState)
    (c : Nat) (b : List (List Nat)) (v : List Int)
    (hps : processStatus s sr = some s2)
    (hil : innerLoop store (Int.ofNat s2.increment) 0 [preDusk, s2.resume] =
      .close c b v) :
    stepSession store sr mr s =
      ⟨callsStatus s, some [preDusk, s2.resume], v, some b, some (payloadOf b),
        some c,
        match mr with
        | none => .retryTransient s2
        | some a2 => if c = 0 then .done else .continueOuter ⟨a2, c - 1⟩⟩ := by
  simp only [stepSession]
  split
  · next heq =>
    rw [hps] at heq
    cases heq
  · next s3 heq =>
    rw [hps] at heq
    injection heq with heq2
    subst heq2
    rw [hil]
    cases mr with
    | none => rfl
    | some a2 => by_cases hc : c = 0 <;> simp [hc]

theorem stepSession_eq_close_some (store : Nat → Option DataTimeProof)
    (sr : Option (List Nat × Nat)) (a : List Nat) (s s2 : WorkerState)
    (c : Nat) (b : List (List Nat)) (v : List Int)
    (hps : processStatus s sr = some s2)
    (hil : innerLoop store (Int.ofNat s2.increment) 0 [preDusk, s2.resume] =
      .close c b v) :
    stepSession store sr (some a) s =
      ⟨callsStatus s, some [preDusk, s2.resume], v, some b, some (payloadOf b),
        some c,
        if c = 0 then .done else .continueOuter ⟨a, c - 1⟩⟩ := by
  rw [stepSession_eq_close store sr (some a) s s2 c b v hps hil]

theorem runWorker_step_done (store : Nat → Option DataTimeProof)
    (statusF : Nat → Option (List Nat × Nat)) (mintF : Nat → Option (List Nat))
    (fuel sc mc : Nat) (s : WorkerState) (tr : StepTrace)
    (ht : stepSession store (statusF sc) (mintF mc) s = tr)
    (hres : tr.result = .done) :
    runWorker store statusF mintF (fuel + 1) sc mc s =
      ⟨optBatch tr.submitted, tr.visited, 1, .done⟩ := by
  simp only [runWorker, ht]
  split
  · rfl
  · next heq => rw [hres] at heq; cases heq
  · next heq => rw [hres] at heq; cases heq
  · next heq => rw [hres] at heq; cases heq

theorem runWorker_step_fatal (store : Nat → Option DataTimeProof)
    (statusF : Nat → Option (List Nat × Nat)) (mintF : Nat → Option (List Nat))
    (fuel sc mc : Nat) (s : WorkerState) (tr : StepTrace) (j : Nat)
    (ht : stepSession store (statusF sc) (mintF mc) s = tr)
    (hres : tr.result = .fatalMissing j) :
    runWorker store statusF mintF (fuel + 1) sc mc s =
      ⟨optBatch tr.submitted, tr.visited, 1, .fatalMissing j⟩ := by
  simp only [runWorker, ht]
  split
  · next heq => rw [hres] at heq; cases heq
  · next heq =>
    rw [hres] at heq
    injection heq with heq2
    rw [heq2]
  · next heq => rw [hres] at heq; cases heq
  · next heq => rw [hres] at heq; cases heq

theorem runWorker_step_continue (store : Nat → Option DataTimeProof)
    (statusF : Nat → Option (List Nat × Nat)) (mintF : Nat → Option (List Nat))
    (fuel sc mc : Nat) (s s2 : WorkerState) (tr : StepTrace)
    (ht : stepSession store (statusF sc) (mintF mc) s = tr)
    (hres : tr.result = .continueOuter s2) :
    runWorker store statusF mintF (fuel + 1) sc mc s =
      ⟨optBatch tr.submitted ++
          (runWorker store statusF mintF fuel
            (if tr.calledStatus then sc + 1 else sc)
            (if tr.submitted.isSome then mc + 1 else mc) s2).batches,
        tr.visited ++
          (runWorker store statusF mintF fuel
            (if tr.calledStatus then sc + 1 else sc)
            (if tr.submitted.isSome then mc + 1 else mc) s2).visited,
        (runWorker store statusF mintF fuel
          (if tr.calledStatus then sc + 1 else sc)
          (if tr.submitted.isSome then mc + 1 else mc) s2).sessions + 1,
        (runWorker store statusF mintF fuel
          (if tr.calledStatus then sc + 1 else sc)
          (if tr.submitted.isSome then mc + 1 else mc) s2).outcome⟩ := by
  simp only [runWorker, ht]
  split
  · next heq => rw [hres] at heq; cases heq
  · next heq => rw [hres] at heq; cases heq
  · next heq => rw [hres] at heq; cases heq
  · next s3 heq =>
    rw [hres] at heq
    injection heq with heq2
    rw [heq2]

theorem runWorker_total (store : Nat → Option DataTimeProof)
    (statusF : Nat → Option (List Nat × Nat)) (mintF : Nat → Option (List Nat))
    (a : List Nat) (ha : a ≠ zeros32) (hm : ∀ m, mintF m = some a) :
    ∀ (fuel n sc mc : Nat) (r : List Nat), r ≠ zeros32 →
      (∀ k, k ≤ n → (store k).isSome) → n < 200 * fuel →
      (runWorker store statusF mintF fuel sc mc ⟨r, n⟩).visited =
        (descRange n 0).map Int.ofNat ∧
      (runWorker store statusF mintF fuel sc mc ⟨r, n⟩).outcome = .done := by
  intro fuel
  induction fuel with
  | zero => intro n sc mc r h1 h2 h3; omega
  | succ fuel ih =>
    intro n sc mc r hr htot hfuel
    have hps : processStatus (⟨r, n⟩ : WorkerState) (statusF sc) =
        some ⟨r, n⟩ := by
      simp [processStatus, hr]
    have hil : innerLoop store (Int.ofNat n) 0 [preDusk, r] =
        .close (stopAt n 0)
          ([preDusk, r] ++ (descRange n (stopAt n 0)).map
            (fun k => frameEntry k (getR store k)))
          ((descRange n (stopAt n 0)).map Int.ofNat) :=
      innerLoopAux_total store (n + 1) n 0 [preDusk, r] (by omega) (by omega)
        (fun k hk1 hk2 => htot k hk2)
    have ht := stepSession_eq_close store (statusF sc) (mintF mc) ⟨r, n⟩
      ⟨r, n⟩ _ _ _ hps hil
    by_cases hstop : stopAt n 0 = 0
    · have hres : (⟨callsStatus ⟨r, n⟩, some [preDusk, r],
          (descRange n (stopAt n 0)).map Int.ofNat,
          some ([preDusk, r] ++ (descRange n (stopAt n 0)).map
            (fun k => frameEntry k (getR store k))),
          some (payloadOf ([preDusk, r] ++ (descRange n (stopAt n 0)).map
            (fun k => frameEntry k (getR store k)))),
          some (stopAt n 0),
          match mintF mc with
          | none => StepResult.retryTransient ⟨r, n⟩
          | some a2 =>
            if stopAt n 0 = 0 then StepResult.done
            else StepResult.continueOuter ⟨a2, stopAt n 0 - 1⟩⟩ :
            StepTrace).result = .done := by
        simp [hm mc, hstop]
      rw [runWorker_step_done store statusF mintF fuel sc mc ⟨r, n⟩ _ ht hres]
      rw [hstop] at hil ⊢
      exact ⟨rfl, rfl⟩
    · have hn200 : 200 ≤ n := by
        unfold stopAt at hstop
        split at hstop <;> omega
      have hres : (⟨callsStatus ⟨r, n⟩, some [preDusk, r],
          (descRange n (stopAt n 0)).map Int.ofNat,
          some ([preDusk, r] ++ (descRange n (stopAt n 0)).map
            (fun k => frameEntry k (getR store k))),
          some (payloadOf ([preDusk, r] ++ (descRange n (stopAt n 0)).map
            (fun k => frameEntry k (getR store k)))),
          some (stopAt n 0),
          match mintF mc with
          | none => StepResult.retryTransient ⟨r, n⟩
          | some a2 =>
            if stopAt n 0 = 0 then StepResult.done
            else StepResult.continueOuter ⟨a2, stopAt n 0 - 1⟩⟩ :
            StepTrace).result = .continueOuter ⟨a, stopAt n 0 - 1⟩ := by
        simp [hm mc, hstop]
      rw [runWorker_step_continue store statusF mintF fuel sc mc ⟨r, n⟩
        ⟨a, stopAt n 0 - 1⟩ _ ht hres]
      have hstop1 : stopAt n 0 - 1 = n - 200 := by
        unfold stopAt
        split <;> omega
      have hstopv : stopAt n 0 = n - 200 + 1 := by
        unfold stopAt
        split <;> omega
      rw [hstop1]
      obtain ⟨ihv, iho⟩ := ih (n - 200)
        (if callsStatus (⟨r, n⟩ : WorkerState) = true then sc + 1 else sc)
        (if (some ([preDusk, r] ++ (descRange n (stopAt n 0)).map
            (fun k => frameEntry k (getR store k)))).isSome = true
          then mc + 1 else mc)
        a ha (fun k hk => htot k (by omega)) (by omega)
      refine ⟨?_, iho⟩
      rw [ihv]
      rw [← List.map_append]
      rw [show (descRange n (stopAt n 0) ++ descRange (n - 200) 0) =
        descRange n 0 from ?_]
      rw [hstopv]
      exact (descRange_append n (n - 200) 0 (by omega) (by omega)).symm

theorem frameEntry_eq (k : Nat) (q : DataTimeProof) :
    frameEntry k q = natToBytesBE 4 k ++ natToBytesBE 4 q.parallelism ++
      natToBytesBE 8 q.input.length ++ q.input ++
      natToBytesBE 8 q.output.length ++ q.output := by
  simp [frameEntry]

theorem stepSession_skips_status (store : Nat → Option DataTimeProof)
    (sr : Option (List Nat × Nat)) (mr : Option (List Nat)) (s : WorkerState)
    (h : s.resume ≠ zeros32) :
    (stepSession store sr mr s).calledStatus = false ∧
    (stepSession store sr mr s).initProofs = some [preDusk, s.resume] ∧
    (stepSession store sr mr s).visited.head? =
      some (Int.ofNat s.increment) := by
  have hps : processStatus s sr = some s := by
    simp [processStatus, h]
  have hcall : callsStatus s = false := by
    simp [callsStatus, h]
  have hh : (innerLoop store (Int.ofNat s.increment) 0
      [preDusk, s.resume]).visited.head? = some (Int.ofNat s.increment) :=
    innerLoopAux_head store s.increment (Int.ofNat s.increment) 0
      [preDusk, s.resume] (Int.ofNat_nonneg s.increment)
  rcases innerLoopAux_shape store (s.increment + 1) s.increment 0
      [preDusk, s.resume] (by omega) with ⟨j, v, hv⟩ | ⟨c, b, v, hv⟩
  · have ht := stepSession_eq_fatal store sr mr s s j v hps hv
    rw [ht]
    refine ⟨hcall, rfl, ?_⟩
    rw [show innerLoop store (Int.ofNat s.increment) 0 [preDusk, s.resume] =
      InnerOut.fatal j v from hv] at hh
    simpa [InnerOut.visited] using hh
  · have ht := stepSession_eq_close store sr mr s s c b v hps hv
    rw [ht]
    refine ⟨hcall, rfl, ?_⟩
    rw [show innerLoop store (Int.ofNat s.increment) 0 [preDusk, s.resume] =
      InnerOut.close c b v from hv] at hh
    simpa [InnerOut.visited] using hh

/-! Claim theorems. -/

/-- C4: whenever the resume token is the all-zero sentinel and the remote
status call succeeds, the worker adopts the returned address as the new
resume token and sets the next increment to the returned increment minus
one when that is non-zero, and to zero when the returned increment is
exactly zero. -/
theorem claim_C4_status_resume (s : WorkerState) (a : List Nat) (inc : Nat)
    (h : s.resume = zeros32) :
    ∃ s2, processStatus s (some (a, inc)) = some s2 ∧ s2.resume = a ∧
      (inc ≠ 0 → s2.increment = inc - 1) ∧ (inc = 0 → s2.increment = 0) := by
  refine ⟨⟨a, if inc ≠ 0 then inc - 1 else 0⟩, by simp [processStatus, h], rfl,
    ?_, ?_⟩
  · intro h1
    simp [h1]
  · intro h1
    simp [h1]

/-- Witness for C4 at a concrete state and response. -/
theorem claim_C4_witness :
    ∃ s2, processStatus ⟨zeros32, 7⟩ (some (addr1, 5)) = some s2 ∧
      s2.resume = addr1 ∧ ((5 : Nat) ≠ 0 → s2.increment = 4) ∧
      ((5 : Nat) = 0 → s2.increment = 0) :=
  claim_C4_status_resume ⟨zeros32, 7⟩ addr1 5 rfl

/-- C10: a successful status response whose address is the 32-zero-byte
sentinel leaves the resume token equal to the sentinel, so a session
acquisition with the resulting state calls the status operation again:
the sentinel is in-band, and an all-zero returned address is
indistinguishable from "no resume in progress". -/
theorem claim_C10_inband_sentinel (s : WorkerState) (inc : Nat)
    (h : s.resume = zeros32) :
    ∃ s2, processStatus s (some (zeros32, inc)) = some s2 ∧
      s2.resume = zeros32 ∧ callsStatus s2 = true := by
  refine ⟨⟨zeros32, if inc ≠ 0 then inc - 1 else 0⟩,
    by simp [processStatus, h], rfl, by simp [callsStatus]⟩

/-- Witness for C10 at a concrete state and response. -/
theorem claim_C10_witness :
    ∃ s2, processStatus ⟨zeros32, 3⟩ (some (zeros32, 9)) = some s2 ∧
      s2.resume = zeros32 ∧ callsStatus s2 = true :=
  claim_C10_inband_sentinel ⟨zeros32, 3⟩ 9 rfl

/-- C8: in every outer-loop iteration whose resume token is not the
all-zero sentinel, the worker does not invoke the remote status operation
and proceeds directly to batching: the batch is restarted as the tag plus
the carried resume token, and the inner loop starts at the increment
carried over from the previous iteration. -/
theorem claim_C8_no_status (store : Nat → Option DataTimeProof)
    (sr : Option (List Nat × Nat)) (mr : Option (List Nat)) (s : WorkerState)
    (h : s.resume ≠ zeros32) :
    (stepSession store sr mr s).calledStatus = false ∧
    (stepSession store sr mr s).initProofs = some [preDusk, s.resume] ∧
    (stepSession store sr mr s).visited.head? =
      some (Int.ofNat s.increment) :=
  stepSession_skips_status store sr mr s h

/-- Witness for C8 at a concrete non-sentinel state. -/
theorem claim_C8_witness :
    (stepSession store1 (some (addr2, 9)) (some addr2)
      ⟨addr1, 4⟩).calledStatus = false ∧
    (stepSession store1 (some (addr2, 9)) (some addr2)
      ⟨addr1, 4⟩).initProofs = some [preDusk, addr1] ∧
    (stepSession store1 (some (addr2, 9)) (some addr2)
      ⟨addr1, 4⟩).visited.head? = some (Int.ofNat 4) :=
  claim_C8_no_status store1 (some (addr2, 9)) (some addr2) ⟨addr1, 4⟩
    (by decide)

/-- C9: a record returned by the ownership-store query (with no error, or
a not-found error) terminates the worker immediately as already completed
with zero sessions opened; a not-found result with no records advances to
the submission phase; any error other than not-found is fatal and the
worker does not continue past it. -/
theorem claim_C9_already_minted (err : Option GoErr) (prfs : List (List Nat))
    (store : Nat → Option DataTimeProof)
    (statusF : Nat → Option (List Nat × Nat)) (mintF : Nat → Option (List Nat))
    (fuel : Nat) (s : WorkerState) :
    ((err = none ∨ err = some .notFound) → prfs ≠ [] →
      topRun err prfs store statusF mintF fuel s = .alreadyCompleted ∧
      (topRun err prfs store statusF mintF fuel s).sessions = 0) ∧
    (err = some .notFound → prfs = [] →
      topRun err prfs store statusF mintF fuel s =
        .ran (runWorker store statusF mintF fuel 0 0 s)) ∧
    (err = some .other →
      topRun err prfs store statusF mintF fuel s = .fatalStoreError) := by
  refine ⟨?_, ?_, ?_⟩
  · intro he hp
    have hg : checkAlreadyMinted err prfs = .alreadyCompleted := by
      rcases he with he | he <;> subst he <;> simp [checkAlreadyMinted, hp]
    rw [show topRun err prfs store statusF mintF fuel s = .alreadyCompleted
      from by simp [topRun, hg]]
    exact ⟨rfl, rfl⟩
  · intro he hp
    subst he
    subst hp
    have hg : checkAlreadyMinted (some .notFound) ([] : List (List Nat)) =
        .ready := by
      simp [checkAlreadyMinted]
    simp [topRun, hg]
  · intro he
    subst he
    have hg : checkAlreadyMinted (some .other) prfs = .fatalStoreError := by
      simp [checkAlreadyMinted]
    simp [topRun, hg]

/-- Witness for C9 at concrete gate inputs, one per case. -/
theorem claim_C9_witness :
    (topRun (some .notFound) [[1]] store1 sf1 mf1 1 ⟨zeros32, 5⟩ =
        .alreadyCompleted ∧
      (topRun (some .notFound) [[1]] store1 sf1 mf1 1
        ⟨zeros32, 5⟩).sessions = 0) ∧
    topRun (some .notFound) [] store1 sf1 mf1 1 ⟨zeros32, 5⟩ =
      .ran (runWorker store1 sf1 mf1 1 0 0 ⟨zeros32, 5⟩) ∧
    topRun (some .other) [] store1 sf1 mf1 1 ⟨zeros32, 5⟩ =
      .fatalStoreError :=
  ⟨(claim_C9_already_minted (some .notFound) [[1]] store1 sf1 mf1 1
      ⟨zeros32, 5⟩).1 (Or.inr rfl) (by decide),
    (claim_C9_already_minted (some .notFound) [] store1 sf1 mf1 1
      ⟨zeros32, 5⟩).2.1 rfl rfl,
    (claim_C9_already_minted (some .other) [] store1 sf1 mf1 1
      ⟨zeros32, 5⟩).2.2 rfl⟩

/-- C1: the submission inner loop visits increments in strictly decreasing
order, every visited value (held in a signed integer that cannot wrap
below zero) lies in the inclusive range from 0 to the starting increment;
for starting increment 0 the loop body runs for increment 0 exactly once
and then the loop terminates; and when the records are present and the
submissions succeed the full run visits exactly the inclusive range from
the starting increment down to 0 in strictly decreasing order. -/
theorem claim_C1_descending_no_wrap (store : Nat → Option DataTimeProof)
    (n bc : Nat) (p : List (List Nat))
    (statusF : Nat → Option (List Nat × Nat)) (mintF : Nat → Option (List Nat))
    (a r : List Nat) (fuel sc mc : Nat) :
    (List.Chain' (fun x y : Int => y < x)
        (innerLoop store (Int.ofNat n) bc p).visited ∧
      ∀ x ∈ (innerLoop store (Int.ofNat n) bc p).visited,
        0 ≤ x ∧ x ≤ (n : Int)) ∧
    (innerLoop store (Int.ofNat 0) bc p).visited = [(0 : Int)] ∧
    (r ≠ zeros32 → a ≠ zeros32 → (∀ m, mintF m = some a) →
      (∀ k, k ≤ n → (store k).isSome) → n < 200 * fuel →
      (runWorker store statusF mintF fuel sc mc ⟨r, n⟩).visited =
        (descRange n 0).map Int.ofNat ∧
      (runWorker store statusF mintF fuel sc mc ⟨r, n⟩).outcome = .done) := by
  obtain ⟨j, hj, hvis⟩ := innerLoopAux_visited_shape store (n + 1) n bc p
    (by omega)
  refine ⟨⟨?_, ?_⟩, ?_, ?_⟩
  · rw [show innerLoop store (Int.ofNat n) bc p =
      innerLoopAux store (n + 1) (Int.ofNat n) bc p from rfl, hvis]
    rw [List.chain'_map]
    refine (descRange_chain n j).imp (fun x y h => ?_)
    simp only [Int.ofNat_eq_natCast]
    exact_mod_cast h
  · intro x hx
    rw [show innerLoop store (Int.ofNat n) bc p =
      innerLoopAux store (n + 1) (Int.ofNat n) bc p from rfl, hvis] at hx
    simp only [List.mem_map] at hx
    obtain ⟨k, hk, rfl⟩ := hx
    obtain ⟨hk1, hk2⟩ := descRange_mem n j k hk
    constructor
    · exact Int.ofNat_nonneg k
    · simp only [Int.ofNat_eq_natCast]
      exact_mod_cast hk2
  · obtain ⟨j0, hj0, hvis0⟩ := innerLoopAux_visited_shape store 1 0 bc p
      (by omega)
    have hj00 : j0 = 0 := by omega
    subst hj00
    rw [show innerLoop store (Int.ofNat 0) bc p =
      innerLoopAux store 1 (Int.ofNat 0) bc p from rfl, hvis0]
    simp [descRange]
  · intro h1 h2 h3 h4 h5
    exact runWorker_total store statusF mintF a h2 h3 fuel n sc mc r h1 h4 h5

/-- Witness for C1 at a concrete store and successful oracles. -/
theorem claim_C1_witness :
    (List.Chain' (fun x y : Int => y < x)
        (innerLoop store1 (Int.ofNat 3) 0 []).visited ∧
      ∀ x ∈ (innerLoop store1 (Int.ofNat 3) 0 []).visited,
        0 ≤ x ∧ x ≤ ((3 : Nat) : Int)) ∧
    (innerLoop store1 (Int.ofNat 0) 0 []).visited = [(0 : Int)] ∧
    ((runWorker store1 sf1 mf1 1 0 0 ⟨addr1, 3⟩).visited =
        (descRange 3 0).map Int.ofNat ∧
      (runWorker store1 sf1 mf1 1 0 0 ⟨addr1, 3⟩).outcome = .done) := by
  obtain ⟨h1, h2, h3⟩ :=
    claim_C1_descending_no_wrap store1 3 0 [] sf1 mf1 addr2 addr1 1 0 0
  refine ⟨h1, h2, h3 (by decide) (by decide) (fun m => rfl) ?_ (by norm_num)⟩
  intro k hk
  have hk5 : k ≤ 5 := by omega
  simp [store1, hk5]

/-- C3: every submitted batch is, in order, the literal tag entry, the
current resume token as one opaque entry, then proof entries framed
exactly as be32(increment) || be32(parallelism) || be64(len input) ||
input || be64(len output) || output; and the signed payload is the
literal "mint" tag followed by the raw bytes of every batch entry in
batch order. -/
theorem claim_C3_batch_framing (store : Nat → Option DataTimeProof)
    (sr : Option (List Nat × Nat)) (mr : Option (List Nat)) (s : WorkerState)
    (b : List (List Nat))
    (hb : (stepSession store sr mr s).submitted = some b) :
    ∃ s2 entries, processStatus s sr = some s2 ∧
      b = preDusk :: s2.resume :: entries ∧
      (∀ e ∈ entries, ∃ k q, store k = some q ∧
        e = natToBytesBE 4 k ++ natToBytesBE 4 q.parallelism ++
          natToBytesBE 8 q.input.length ++ q.input ++
          natToBytesBE 8 q.output.length ++ q.output) ∧
      (stepSession store sr mr s).payload =
        some (mintTag ++ bytesConcat b) := by
  cases hp : processStatus s sr with
  | none =>
    rw [stepSession_eq_retry store sr mr s hp] at hb
    cases hb
  | some s2 =>
    rcases innerLoopAux_shape store (s2.increment + 1) s2.increment 0
        [preDusk, s2.resume] (by omega) with ⟨j, v, hv⟩ | ⟨c, bt, v, hv⟩
    · rw [stepSession_eq_fatal store sr mr s s2 j v hp hv] at hb
      cases hb
    · have ht := stepSession_eq_close store sr mr s s2 c bt v hp hv
      rw [ht] at hb
      injection hb with hb2
      obtain ⟨entries, he1, he2, he3, he4, he5⟩ :=
        innerLoopAux_close_structure store (s2.increment + 1)
          (Int.ofNat s2.increment) 0 [preDusk, s2.resume] c bt v (by omega) hv
      refine ⟨s2, entries, rfl, ?_, ?_, ?_⟩
      · rw [← hb2, he1]
        rfl
      · intro e he
        obtain ⟨k, q, hq, hframe⟩ := he5 e he
        exact ⟨k, q, hq, by rw [hframe, frameEntry_eq]⟩
      · rw [ht, ← hb2, payloadOf_eq]

/-- Witness for C3 at a concrete submission. -/
theorem claim_C3_witness :
    ∃ s2 entries, processStatus ⟨addr1, 2⟩ none = some s2 ∧
      b0 = preDusk :: s2.resume :: entries ∧
      (∀ e ∈ entries, ∃ k q, store1 k = some q ∧
        e = natToBytesBE 4 k ++ natToBytesBE 4 q.parallelism ++
          natToBytesBE 8 q.input.length ++ q.input ++
          natToBytesBE 8 q.output.length ++ q.output) ∧
      (stepSession store1 none (some addr2) ⟨addr1, 2⟩).payload =
        some (mintTag ++ bytesConcat b0) :=
  claim_C3_batch_framing store1 none (some addr2) ⟨addr1, 2⟩ b0 (by decide)

/-- C6: a submitted batch carries at most 200 proof entries; it closes
exactly at 200 accumulated records or at increment 0, whichever comes
first; after a successful closure at a non-zero increment, the outer loop
continues from one below the closing increment with the returned resume
token, and the next iteration restarts the batch containing only the tag
and that latest resume token. -/
theorem claim_C6_batch_bound (store : Nat → Option DataTimeProof)
    (sr : Option (List Nat × Nat)) (a2 : List Nat) (s : WorkerState)
    (b : List (List Nat)) (c : Nat)
    (hb : (stepSession store sr (some a2) s).submitted = some b)
    (hc : (stepSession store sr (some a2) s).closedAt = some c) :
    ∃ s2 entries, processStatus s sr = some s2 ∧
      b = preDusk :: s2.resume :: entries ∧
      entries.length ≤ 200 ∧ (entries.length = 200 ∨ c = 0) ∧
      (c ≠ 0 → (stepSession store sr (some a2) s).result =
        .continueOuter ⟨a2, c - 1⟩) ∧
      (a2 ≠ zeros32 →
        (stepSession store sr (some a2) ⟨a2, c - 1⟩).initProofs =
          some [preDusk, a2]) := by
  cases hp : processStatus s sr with
  | none =>
    rw [stepSession_eq_retry store sr (some a2) s hp] at hb
    cases hb
  | some s2 =>
    rcases innerLoopAux_shape store (s2.increment + 1) s2.increment 0
        [preDusk, s2.resume] (by omega) with ⟨j, v, hv⟩ | ⟨c2, bt, v, hv⟩
    · rw [stepSession_eq_fatal store sr (some a2) s s2 j v hp hv] at hb
      cases hb
    · have ht := stepSession_eq_close_some store sr a2 s s2 c2 bt v hp hv
      rw [ht] at hb hc
      injection hb with hb2
      injection hc with hc2
      rw [hc2] at ht hv
      obtain ⟨entries, he1, he2, he3, he4, he5⟩ :=
        innerLoopAux_close_structure store (s2.increment + 1)
          (Int.ofNat s2.increment) 0 [preDusk, s2.resume] c bt v (by omega) hv
      refine ⟨s2, entries, rfl, ?_, by omega, by omega, ?_, ?_⟩
      · rw [← hb2, he1]
        rfl
      · intro hcz
        rw [ht]
        simp [hcz]
      · intro ha2
        exact (stepSession_skips_status store sr (some a2) ⟨a2, c - 1⟩
          ha2).2.1

set_option maxRecDepth 16384 in
/-- Witness for C6 at a concrete 200-entry closure. -/
theorem claim_C6_witness :
    ∃ s2 entries, processStatus ⟨addr1, 300⟩ none = some s2 ∧
      bBig = preDusk :: s2.resume :: entries ∧
      entries.length ≤ 200 ∧ (entries.length = 200 ∨ (101 : Nat) = 0) ∧
      ((101 : Nat) ≠ 0 →
        (stepSession storeBig none (some addr2) ⟨addr1, 300⟩).result =
          .continueOuter ⟨addr2, 100⟩) ∧
      (addr2 ≠ zeros32 →
        (stepSession storeBig none (some addr2) ⟨addr2, 100⟩).initProofs =
          some [preDusk, addr2]) :=
  claim_C6_batch_bound storeBig none addr2 ⟨addr1, 300⟩ bBig 101 (by decide)
    (by decide)

/-- C7: a missing local record at any increment reached by the iteration
makes the worker release the session and terminate permanently: the run
ends with the fatal-missing outcome, no batch is submitted, no further
session is opened, and the transient 10-second retry path is not
entered. -/
theorem claim_C7_missing_record (store : Nat → Option DataTimeProof)
    (statusF : Nat → Option (List Nat × Nat)) (mintF : Nat → Option (List Nat))
    (fuel sc mc : Nat) (s s2 : WorkerState) (j : Nat)
    (hps : processStatus s (statusF sc) = some s2)
    (hj : store j = none) (hjn : j ≤ s2.increment)
    (htot : ∀ k, j < k → k ≤ s2.increment → (store k).isSome)
    (hlt : s2.increment - j < 200) :
    runWorker store statusF mintF (fuel + 1) sc mc s =
      ⟨[], (descRange s2.increment j).map Int.ofNat, 1, .fatalMissing j⟩ := by
  have hil : innerLoop store (Int.ofNat s2.increment) 0 [preDusk, s2.resume] =
      .fatal j ((descRange s2.increment j).map Int.ofNat) :=
    innerLoopAux_gap store (s2.increment + 1) s2.increment 0 j
      [preDusk, s2.resume] (by omega) hj hjn htot (by omega)
  have ht := stepSession_eq_fatal store (statusF sc) (mintF mc) s s2 j
    ((descRange s2.increment j).map Int.ofNat) hps hil
  rw [runWorker_step_fatal store statusF mintF fuel sc mc s _ j ht rfl]
  rfl

/-- Witness for C7 at a store with a gap at increment 1. -/
theorem claim_C7_witness :
    runWorker storeG sf1 mf1 1 0 0 ⟨addr1, 3⟩ =
      ⟨[], (descRange 3 1).map Int.ofNat, 1, .fatalMissing 1⟩ := by
  refine claim_C7_missing_record storeG sf1 mf1 0 0 0 ⟨addr1, 3⟩ ⟨addr1, 3⟩ 1
    (by decide) (by decide) (by decide) ?_ (by decide)
  intro k h1 h2
  have hk : k ≠ 1 := by omega
  simp [storeG, hk]


/-- C2 counterexample: the hash input concatenates the variable-length
fields `indexProof` and `commitment` with no length framing, so swapping
the distinct values `[1]` and `[1, 1]` between the two fields yields the
identical hash input and the identical address, for any hash: the claim
that swapping any two fields changes the output is false. -/
theorem claim_C2_counterexample :
    pCx1.indexProof ≠ pCx1.commitment ∧
    pCx2.indexProof = pCx1.commitment ∧ pCx2.commitment = pCx1.indexProof ∧
    pCx2.amount = pCx1.amount ∧ pCx2.index = pCx1.index ∧
    pCx2.proof = pCx1.proof ∧ pCx2.parallelism = pCx1.parallelism ∧
    pCx2.difficulty = pCx1.difficulty ∧
    pCx2.ownerAddress = pCx1.ownerAddress ∧
    preCoinEval tagCx pCx1 = preCoinEval tagCx pCx2 ∧
    GetAddressOfPreCoinProof tagCx hashCx pCx1 =
      GetAddressOfPreCoinProof tagCx hashCx pCx2 := by
  decide

/-- C2 amended: for every well-formed proof whose hash value fits in 32
bytes, the address is exactly 32 bytes, obtained deterministically from
hashing the concatenation of the fields in the stated fixed order;
swapping the two fixed-width fields parallelism and difficulty (when
their values differ) changes the hash input, but swapping variable-length
fields need not (see the counterexample), so order sensitivity holds only
where the swap changes the concatenation. -/
theorem claim_C2_amended (tag : List Nat) (hash : List Nat → Option Nat)
    (p : PreCoinProof) (v : Nat)
    (hv : hash (preCoinEval tag p) = some v) (hlt : v < 2 ^ 256) :
    (∃ a, GetAddressOfPreCoinProof tag hash p = some a ∧ a.length = 32) ∧
    preCoinEval tag p =
      tag ++ p.amount ++ natToBytesBE 4 p.index ++ p.indexProof ++
        p.commitment ++ p.proof ++ natToBytesBE 4 p.parallelism ++
        natToBytesBE 4 p.difficulty ++ natToBytesBE 4 0 ++ p.ownerAddress ∧
    (p.parallelism < 2 ^ 32 → p.difficulty < 2 ^ 32 →
      p.parallelism ≠ p.difficulty →
      preCoinEval tag ⟨p.amount, p.index, p.indexProof, p.commitment, p.proof,
        p.difficulty, p.parallelism, p.ownerAddress⟩ ≠
        preCoinEval tag p) := by
  refine ⟨⟨natToBytesBE 32 v, ?_, natToBytesBE_length 32 v⟩, ?_, ?_⟩
  · simp [GetAddressOfPreCoinProof, hv, fillBytes32]
    simpa using hlt
  · simp [preCoinEval]
  · intro h1 h2 h3 heq
    apply h3
    simp only [preCoinEval, List.nil_append, List.append_assoc] at heq
    have e1 := List.append_cancel_left heq
    have e2 := List.append_cancel_left e1
    have e3 := List.append_cancel_left e2
    have e4 := List.append_cancel_left e3
    have e5 := List.append_cancel_left e4
    have e6 := List.append_cancel_left e5
    have hlen : (natToBytesBE 4 p.difficulty).length =
        (natToBytesBE 4 p.parallelism).length := by
      rw [natToBytesBE_length, natToBytesBE_length]
    obtain ⟨hfst, _⟩ := List.append_inj e6 hlen
    exact (natToBytesBE_inj 4 p.difficulty p.parallelism
      (by simpa using h2) (by simpa using h1) hfst).symm

/-- Witness for the amended C2 at a concrete proof and hash. -/
theorem claim_C2_witness :
    (∃ a, GetAddressOfPreCoinProof tagCx hashW pCx1 = some a ∧
      a.length = 32) ∧
    preCoinEval tagCx pCx1 =
      tagCx ++ pCx1.amount ++ natToBytesBE 4 pCx1.index ++ pCx1.indexProof ++
        pCx1.commitment ++ pCx1.proof ++ natToBytesBE 4 pCx1.parallelism ++
        natToBytesBE 4 pCx1.difficulty ++ natToBytesBE 4 0 ++
        pCx1.ownerAddress ∧
    (pCx1.parallelism < 2 ^ 32 → pCx1.difficulty < 2 ^ 32 →
      pCx1.parallelism ≠ pCx1.difficulty →
      preCoinEval tagCx ⟨pCx1.amount, pCx1.index, pCx1.indexProof,
        pCx1.commitment, pCx1.proof, pCx1.difficulty, pCx1.parallelism,
        pCx1.ownerAddress⟩ ≠ preCoinEval tagCx pCx1) :=
  claim_C2_amended tagCx hashW pCx1 5 rfl (by norm_num)

/-- C5 counterexample: with proofs stored at increments 0..5 and a status
response carrying increment 3, the worker computes next increment 2
(increment minus one), so the single submitted batch covers increments
2, 1, 0 and not 3, 2, 1, 0. -/
theorem claim_C5_counterexample :
    runWorker store5 sf1 mf1 3 0 0 ⟨zeros32, 5⟩ =
      ⟨[[preDusk, addr1, frameEntry 2 ⟨2, [2], [3]⟩,
        frameEntry 1 ⟨1, [1], [2]⟩, frameEntry 0 ⟨0, [0], [1]⟩]],
        [(2 : Int), 1, 0], 1, .done⟩ ∧
    (runWorker store5 sf1 mf1 3 0 0 ⟨zeros32, 5⟩).visited ≠
      [(3 : Int), 2, 1, 0] := by
  decide

/-- C5 amended: with records present at increments 0..2 and a successful
remote status response carrying increment 3, the worker submits exactly
one batch whose proof entries cover increments 2, 1, 0 in that order and
terminates successfully. -/
theorem claim_C5_amended (store : Nat → Option DataTimeProof)
    (statusF : Nat → Option (List Nat × Nat)) (mintF : Nat → Option (List Nat))
    (fuel sc mc m : Nat) (addr a2 : List Nat) (r0 r1 r2 : DataTimeProof)
    (hs : statusF sc = some (addr, 3)) (hm : mintF mc = some a2)
    (h0 : store 0 = some r0) (h1 : store 1 = some r1)
    (h2 : store 2 = some r2) :
    runWorker store statusF mintF (fuel + 1) sc mc ⟨zeros32, m⟩ =
      ⟨[[preDusk, addr, frameEntry 2 r2, frameEntry 1 r1, frameEntry 0 r0]],
        [(2 : Int), 1, 0], 1, .done⟩ := by
  have hps : processStatus ⟨zeros32, m⟩ (statusF sc) = some ⟨addr, 2⟩ := by
    simp [processStatus, hs]
  have htot : ∀ k, k ≤ 2 → (store k).isSome := by
    intro k hk
    interval_cases k <;> simp [h0, h1, h2]
  have hil := innerLoopAux_total store 3 2 0 [preDusk, addr] (by omega)
    (by omega) (fun k hk1 hk2 => htot k hk2)
  have hil2 : innerLoop store (Int.ofNat 2) 0 [preDusk, addr] =
      .close 0 [preDusk, addr, frameEntry 2 r2, frameEntry 1 r1,
        frameEntry 0 r0] [(2 : Int), 1, 0] := by
    refine hil.trans ?_
    norm_num [stopAt, descRange, getR, h0, h1, h2]
  have ht := stepSession_eq_close store (statusF sc) (mintF mc)
    ⟨zeros32, m⟩ ⟨addr, 2⟩ 0
    [preDusk, addr, frameEntry 2 r2, frameEntry 1 r1, frameEntry 0 r0]
    [(2 : Int), 1, 0] hps hil2
  have hres : (⟨callsStatus ⟨zeros32, m⟩, some [preDusk, addr],
      [(2 : Int), 1, 0],
      some [preDusk, addr, frameEntry 2 r2, frameEntry 1 r1, frameEntry 0 r0],
      some (payloadOf [preDusk, addr, frameEntry 2 r2, frameEntry 1 r1,
        frameEntry 0 r0]),
      some 0,
      match mintF mc with
      | none => StepResult.retryTransient ⟨addr, 2⟩
      | some a3 =>
        if (0 : Nat) = 0 then StepResult.done
        else StepResult.continueOuter ⟨a3, 0 - 1⟩⟩ : StepTrace).result =
      .done := by
    simp [hm]
  rw [runWorker_step_done store statusF mintF fuel sc mc ⟨zeros32, m⟩ _ ht
    hres]
  rfl

/-- Witness for the amended C5 at the concrete end-to-end scenario. -/
theorem claim_C5_witness :
    runWorker store5 sf1 mf1 1 0 0 ⟨zeros32, 5⟩ =
      ⟨[[preDusk, addr1, frameEntry 2 ⟨2, [2], [3]⟩,
        frameEntry 1 ⟨1, [1], [2]⟩, frameEntry 0 ⟨0, [0], [1]⟩]],
        [(2 : Int), 1, 0], 1, .done⟩ :=
  claim_C5_amended store5 sf1 mf1 0 0 0 5 addr1 addr2 ⟨0, [0], [1]⟩
    ⟨1, [1], [2]⟩ ⟨2, [2], [3]⟩ rfl rfl (by decide) (by decide) (by decide)

end Ceremony


